import Mathlib

/-!
Shallow embedding of `pyrelational`'s active-learning strategy engine
(`src/pyrelational/strategies/generic_al_strategy.py`) and of
`BadgeLightningModel.get_gradients` (`src/examples/demo/model_badge.py`).

Python dictionaries are modelled as association lists whose insert
replaces an existing binding in place; metric values are modelled as an
inductive that keeps `np.nan` distinct from exact rationals (Python's
float division of two small integer lengths is modelled as exact
rational division).  The external collaborators `GenericDataManager`
(its `update_train_labels` mutator) and `GenericModel` (its
`train`/`current_model` state) are part of the repository but not among
the given sources; they are modelled from the spec where noted.
-/

namespace PyRel

/-- A metric value: an exact number, or the `np.nan` sentinel used by the
code for the undefined hit-ratio metric. -/
inductive MVal where
  | num (q : ℚ)
  | nan
deriving DecidableEq, Repr

/-- A performance record: a Python dict from metric name to value,
modelled as an association list (first binding wins on lookup). -/
abbrev PerfRecord := List (String × MVal)

/-- Keys of `self.performances`: either an integer iteration number or
the string sentinel `"full"`. -/
inductive PKey where
  | iter (n : ℕ)
  | full
deriving DecidableEq, Repr

/-- Python dict assignment `d[k] = v`: replace the binding in place if
the key is present, else append it. -/
def dictInsert {κ α : Type} [DecidableEq κ] (d : List (κ × α)) (k : κ) (v : α) :
    List (κ × α) :=
  match d with
  | [] => [(k, v)]
  | (k', v') :: rest =>
      if k' = k then (k, v) :: rest else (k', v') :: dictInsert rest k v

/-- Python dict lookup `d[k]` (as an `Option`, `none` for a `KeyError`). -/
def dictGet {κ α : Type} [DecidableEq κ] (d : List (κ × α)) (k : κ) : Option α :=
  match d with
  | [] => none
  | (k', v') :: rest => if k' = k then some v' else dictGet rest k

/-- Python `d.keys()`: dict keys are unique, so deduplicate. -/
def dictKeys {κ α : Type} [DecidableEq κ] (d : List (κ × α)) : List κ :=
  (d.map Prod.fst).dedup

/-- A fitted model snapshot; it records the training indices it was fit
on (the only observable the embedding needs). -/
structure Snapshot where
  trainedOn : List ℕ
deriving DecidableEq, Repr

/-- Modelled from the spec: `GenericModel` (`pyrelational.models.generic_model`)
is not among the given sources; the spec describes it as holding "a
nullable/settable current fitted instance field" (`current_model`). -/
structure GenericModel where
  current_model : Option Snapshot
deriving DecidableEq, Repr

/-- Modelled from the spec: `GenericModel.train(labelled_loader,
validation_loader)` has the "side effect of fitting and storing
ModelState"; the snapshot records the training data. -/
def GenericModel.train (_m : GenericModel) (data : List ℕ) : GenericModel :=
  ⟨some ⟨data⟩⟩

/-- The slice of `GenericDataManager` state the strategy engine reads:
the labelled / unlabelled index partition and the optional oracle
top-informative set (`top_unlabelled`, a Python set). -/
structure DataManager where
  l_indices : List ℕ
  u_indices : List ℕ
  top_unlabelled : Option (Finset ℕ)
deriving DecidableEq

/-- Modelled from the spec: `GenericDataManager.update_train_labels` is
not among the given sources; the spec describes it as the LabelPartition
"move indices from unlabelled to labelled" mutator. -/
def DataManager.update_train_labels (dm : DataManager) (indices : List ℕ) :
    DataManager :=
  { dm with
    l_indices := dm.l_indices ++ indices
    u_indices := dm.u_indices.filter (fun i => decide (i ∉ indices)) }

/-- The engine state of `GenericActiveLearningStrategy`. -/
structure Strategy where
  data_manager : DataManager
  model : GenericModel
  iteration : ℕ
  performances : List (PKey × PerfRecord)
  labelled_by : List (ℕ × String)
deriving DecidableEq

/-- Property `u_indices`. -/
def Strategy.u_indices (s : Strategy) : List ℕ := s.data_manager.u_indices

/-- Property `l_indices`. -/
def Strategy.l_indices (s : Strategy) : List ℕ := s.data_manager.l_indices

/-- `log_labelled_by`'s loop over a provenance dict: for each index,
`labelled_by[indx] = tag`. -/
def logTags (d : List (ℕ × String)) (indices : List ℕ) (tag : String) :
    List (ℕ × String) :=
  indices.foldl (fun acc i => dictInsert acc i tag) d

/-- `log_labelled_by(indices, tag)` (default tag `""`). -/
def Strategy.log_labelled_by (s : Strategy) (indices : List ℕ)
    (tag : String := "") : Strategy :=
  { s with labelled_by := logTags s.labelled_by indices tag }

/-- `__init__`: iteration 0, empty logs, then
`log_labelled_by(data_manager.l_indices, tag="Initialisation")`. -/
def Strategy.mkInit (dm : DataManager) (m : GenericModel) : Strategy :=
  Strategy.log_labelled_by
    { data_manager := dm, model := m, iteration := 0,
      performances := [], labelled_by := [] }
    dm.l_indices "Initialisation"

/-- `update_annotations(indices)`: pure passthrough to
`data_manager.update_train_labels`. -/
def Strategy.update_annotations (s : Strategy) (indices : List ℕ) : Strategy :=
  { s with data_manager := s.data_manager.update_train_labels indices }

/-- `active_learning_update(indices, oracle_interface, update_tag)`.
Both branches of the Python `if` call `update_annotations`; the oracle's
own `update_dataset` mutates ground-truth label values, which are outside
the embedded state, so the oracle argument has no further effect here. -/
def Strategy.active_learning_update (s : Strategy) (indices : List ℕ)
    (_oracle_interface : Option Unit := none) (update_tag : String := "") :
    Strategy :=
  let s1 := s.update_annotations indices
  let s2 := { s1 with iteration := s1.iteration + 1 }
  s2.log_labelled_by indices update_tag

/-- Run `model.test` on the current fitted snapshot; the concrete metric
computation lives in the external model, so it is a parameter `testFn`.
(`model.test` is only called with a fitted model in the source.) -/
def runTest (testFn : Snapshot → PerfRecord) (m : GenericModel) : PerfRecord :=
  match m.current_model with
  | some snap => testFn snap
  | none => []

/-- The hit-ratio value inserted by `current_performance`:
`len(set(query) & top_unlabelled) / len(top_unlabelled)` when a query is
supplied, else `np.nan`.  (Rational division; Python would raise
`ZeroDivisionError` on an empty top set, so claims assume it nonempty.) -/
def hitRatio (top : Finset ℕ) (query : Option (List ℕ)) : MVal :=
  match query with
  | none => MVal.nan
  | some q => MVal.num (((q.toFinset ∩ top).card : ℚ) / (top.card : ℚ))

/-- `current_performance(test_loader, query)`: train on the labelled
loader if no current model, test, reset `current_model` to `None`, then
set `result["hit_ratio"]` when `top_unlabelled` is configured.  Returns
the result record and the post-state. -/
def Strategy.current_performance (s : Strategy) (testFn : Snapshot → PerfRecord)
    (query : Option (List ℕ) := none) : PerfRecord × Strategy :=
  let m := match s.model.current_model with
           | none => s.model.train s.l_indices
           | some _ => s.model
  let result := runTest testFn m
  let result :=
    match s.data_manager.top_unlabelled with
    | some top => dictInsert result "hit_ratio" (hitRatio top query)
    | none => result
  (result, { s with model := ⟨none⟩ })

/-- `theoretical_performance(test_loader)`: train on the full train set,
test, set `result["hit_ratio"] = np.nan` when `top_unlabelled` is
configured, store under `"full"`, reset `current_model` to `None`. -/
def Strategy.theoretical_performance (s : Strategy)
    (testFn : Snapshot → PerfRecord) : PerfRecord × Strategy :=
  let m := s.model.train (s.l_indices ++ s.u_indices)
  let result := runTest testFn m
  let result :=
    match s.data_manager.top_unlabelled with
    | some _ => dictInsert result "hit_ratio" MVal.nan
    | none => result
  (result,
   { s with
     performances := dictInsert s.performances PKey.full result
     model := ⟨none⟩ })

/-- One pass of the body of `full_active_learning_run`'s `while` loop:
select via the strategy's `active_learning_step` (`step`), store
`current_performance` (with the selection as query) under the current
iteration key, then `active_learning_update` tagged with the stringified
current iteration. -/
def passState (step : Strategy → ℕ → List ℕ) (testFn : Snapshot → PerfRecord)
    (num_annotate : ℕ) (s : Strategy) : Strategy :=
  let obs := step s num_annotate
  let pr := s.current_performance testFn (some obs)
  let s1 := { pr.2 with
    performances := dictInsert pr.2.performances (PKey.iter pr.2.iteration) pr.1 }
  s1.active_learning_update obs none (toString s1.iteration)

/-- The `while len(self.u_indices) > 0` loop of `full_active_learning_run`,
with explicit fuel (`none` = fuel ran out before the loop exited).  Each
pass runs `passState`, and the loop stops when `iter_count` reaches
`num_iterations`.  Returns the final `iter_count` (number of passes) and
the post-state. -/
def runLoop (step : Strategy → ℕ → List ℕ) (testFn : Snapshot → PerfRecord)
    (num_annotate : ℕ) (num_iterations : Option ℕ) :
    ℕ → ℕ → Strategy → Option (ℕ × Strategy)
  | 0, iter_count, s =>
      if s.u_indices.length = 0 then some (iter_count, s) else none
  | fuel + 1, iter_count, s =>
      if s.u_indices.length = 0 then some (iter_count, s)
      else
        let ic := iter_count + 1
        let s2 := passState step testFn num_annotate s
        if num_iterations = some ic then some (ic, s2)
        else runLoop step testFn num_annotate num_iterations fuel ic s2

/-- `full_active_learning_run(num_annotate, num_iterations, ...)`: the
main loop followed by a final retrain on the current labelled loader and
a final `current_performance` (no query) stored at the final iteration
key.  (`return_query_history` only controls the returned history dict,
not the engine state, and is omitted.) -/
def Strategy.full_active_learning_run (s : Strategy)
    (step : Strategy → ℕ → List ℕ) (testFn : Snapshot → PerfRecord)
    (num_annotate : ℕ) (num_iterations : Option ℕ) (fuel : ℕ) :
    Option Strategy :=
  match runLoop step testFn num_annotate num_iterations fuel 0 s with
  | none => none
  | some (_, s1) =>
      let s2 := { s1 with model := s1.model.train s1.l_indices }
      let pr := s2.current_performance testFn none
      some { pr.2 with
        performances := dictInsert pr.2.performances (PKey.iter pr.2.iteration) pr.1 }

/-- `sorted(...)` on integer iteration keys. -/
def natSort (l : List ℕ) : List ℕ := List.insertionSort (· ≤ ·) l

/-- `sorted(...)` on metric names (Python string sort). -/
def strSort (l : List String) : List String := List.insertionSort (· ≤ ·) l

/-- `keys = sorted(set(self.performances.keys()) - {"full"})`. -/
def Strategy.history_keys (s : Strategy) : List ℕ :=
  natSort ((s.performances.filterMap
    (fun kv => match kv.1 with | PKey.iter n => some n | PKey.full => none)).dedup)

/-- The `columns` list of `performance_history`: `"Iteration"` followed
by the sorted metric names of the `"full"` record if present, else those
of the record at the current iteration counter if present, else nothing. -/
def Strategy.history_columns (s : Strategy) : List String :=
  match dictGet s.performances PKey.full with
  | some fullRec => "Iteration" :: strSort (dictKeys fullRec)
  | none =>
      match dictGet s.performances (PKey.iter s.iteration) with
      | some itRec => "Iteration" :: strSort (dictKeys itRec)
      | none => ["Iteration"]

/-- The row list of `performance_history`: for each recorded iteration
key `k` (ascending), the row `[k] + [performances[k][c] for c in
columns[1:]]` (cell lookups as `Option`; the Python `isinstance(..., list)`
branch never applies, records are dicts here). -/
def Strategy.history_rows (s : Strategy) : List (ℕ × List (Option MVal)) :=
  s.history_keys.map (fun k =>
    (k, (s.history_columns.drop 1).map (fun c =>
          dictGet ((dictGet s.performances (PKey.iter k)).getD []) c)))

/-- `performance_history()`: the tabular structure as (columns, rows). -/
def Strategy.performance_history (s : Strategy) :
    List String × List (ℕ × List (Option MVal)) :=
  (s.history_columns, s.history_rows)

/-- `BadgeLightningModel.get_gradients(loader)`
(`src/examples/demo/model_badge.py`): raises `ValueError` when
`current_model is None`, else computes per-sample gradients; the torch
computation is abstracted as `compute` over the fitted snapshot and the
loader's indices. -/
def get_gradients {G : Type} (m : GenericModel)
    (compute : Snapshot → List ℕ → G) (loader : List ℕ) : Except String G :=
  match m.current_model with
  | none => Except.error
      "Trying to query gradients of an untrained model, train model before calling get_gradients."
  | some snap => Except.ok (compute snap loader)

/-! ### Concrete example states and step functions used by witnesses -/

/-- A test function returning an empty metric record. -/
def testFnNil : Snapshot → PerfRecord := fun _ => []

/-- A small engine state with no oracle top set. -/
def egPlain : Strategy :=
  { data_manager := { l_indices := [0, 1, 2], u_indices := [3, 4, 5, 6, 7, 8, 9],
                      top_unlabelled := none },
    model := ⟨none⟩, iteration := 0, performances := [], labelled_by := [] }

/-- A small engine state with the oracle top set `{3, 7, 9}`. -/
def egOracle : Strategy :=
  { data_manager := { l_indices := [0, 1], u_indices := [3, 5, 7, 9, 12],
                      top_unlabelled := some {3, 7, 9} },
    model := ⟨none⟩, iteration := 0, performances := [], labelled_by := [] }

/-- A strategy step that takes the first `num_annotate` unlabelled
indices (the generic shape of `active_learning_step` after ranking). -/
def stepTake : Strategy → ℕ → List ℕ := fun s n => s.u_indices.take n

/-- A strategy step that returns a single unlabelled index regardless of
`num_annotate`. -/
def stepOne : Strategy → ℕ → List ℕ := fun s _ => s.u_indices.take 1

/-- A small engine state with a stored `"full"` record and two unlabelled
indices, used to run the loop concretely. -/
def egRun : Strategy :=
  { data_manager := { l_indices := [0], u_indices := [5, 6],
                      top_unlabelled := none },
    model := ⟨none⟩, iteration := 0,
    performances := [(PKey.full, [("acc", MVal.num 1)])],
    labelled_by := [(0, "Initialisation")] }

/-- An engine state with records at iterations 0 and 1 and a `"full"`
record, matching the spec's `performance_history` example. -/
def egHist : Strategy :=
  { data_manager := { l_indices := [0], u_indices := [],
                      top_unlabelled := none },
    model := ⟨none⟩, iteration := 2,
    performances := [(PKey.iter 0, [("b", MVal.num 1)]),
                     (PKey.iter 1, [("b", MVal.num 2)]),
                     (PKey.full, [("a", MVal.num 3), ("b", MVal.num 4)])],
    labelled_by := [] }

end PyRel

namespace PyRel

/-! ### Helper lemmas about the embedded operations -/

theorem dictGet_dictInsert_same {κ α : Type} [DecidableEq κ]
    (d : List (κ × α)) (k : κ) (v : α) :
    dictGet (dictInsert d k v) k = some v := by
  induction d with
  | nil => simp [dictInsert, dictGet]
  | cons hd tl ih =>
      obtain ⟨k', v'⟩ := hd
      by_cases h : k' = k <;> simp [dictInsert, dictGet, h, ih]

theorem dictGet_dictInsert_ne {κ α : Type} [DecidableEq κ]
    (d : List (κ × α)) (k k₀ : κ) (v : α) (hne : k ≠ k₀) :
    dictGet (dictInsert d k v) k₀ = dictGet d k₀ := by
  induction d with
  | nil => simp [dictInsert, dictGet, hne]
  | cons hd tl ih =>
      obtain ⟨k', v'⟩ := hd
      by_cases h : k' = k
      · subst h; simp [dictInsert, dictGet, hne]
      · by_cases h0 : k' = k₀
        · subst h0; simp [dictInsert, dictGet, h, Ne.symm hne]
        · simp [dictInsert, dictGet, h, h0, ih]

theorem current_performance_snd (s : Strategy) (testFn : Snapshot → PerfRecord)
    (q : Option (List ℕ)) :
    (s.current_performance testFn q).2 = { s with model := ⟨none⟩ } := rfl

theorem active_learning_update_iteration (s : Strategy) (indices : List ℕ)
    (o : Option Unit) (tag : String) :
    (s.active_learning_update indices o tag).iteration = s.iteration + 1 := rfl

theorem active_learning_update_l (s : Strategy) (indices : List ℕ)
    (o : Option Unit) (tag : String) :
    (s.active_learning_update indices o tag).l_indices
      = s.l_indices ++ indices := rfl

theorem active_learning_update_u (s : Strategy) (indices : List ℕ)
    (o : Option Unit) (tag : String) :
    (s.active_learning_update indices o tag).u_indices
      = s.u_indices.filter (fun i => decide (i ∉ indices)) := rfl

theorem active_learning_update_labelled (s : Strategy) (indices : List ℕ)
    (o : Option Unit) (tag : String) :
    (s.active_learning_update indices o tag).labelled_by
      = logTags s.labelled_by indices tag := rfl

/-- Splitting a list by a Boolean predicate preserves total length. -/
theorem length_filter_add_length_filter_neg {α : Type} (p : α → Bool)
    (l : List α) :
    (l.filter p).length + (l.filter (fun a => !p a)).length = l.length := by
  induction l with
  | nil => simp
  | cons hd tl ih =>
      cases h : p hd <;> simp [List.filter_cons, h, ← ih] <;> omega

/-- Filtering a duplicate-free list down to the members of a
duplicate-free sublist keeps exactly that sublist's length. -/
theorem length_filter_mem {u I : List ℕ} (hu : u.Nodup) (hI : I.Nodup)
    (hsub : ∀ i ∈ I, i ∈ u) :
    (u.filter (fun i => decide (i ∈ I))).length = I.length := by
  have hnu : (u.filter (fun i => decide (i ∈ I))).Nodup := hu.filter _
  have hfin : (u.filter (fun i => decide (i ∈ I))).toFinset = I.toFinset := by
    ext x
    simp only [List.mem_toFinset, List.mem_filter, decide_eq_true_eq]
    exact ⟨fun h => h.2, fun h => ⟨hsub x h, h⟩⟩
  have h1 := List.toFinset_card_of_nodup hnu
  have h2 := List.toFinset_card_of_nodup hI
  rw [hfin, h2] at h1
  exact h1.symm

/-- Removing the members of a duplicate-free sublist from a
duplicate-free list removes exactly that sublist's length. -/
theorem length_filter_not_mem {u I : List ℕ} (hu : u.Nodup) (hI : I.Nodup)
    (hsub : ∀ i ∈ I, i ∈ u) :
    (u.filter (fun i => decide (i ∉ I))).length = u.length - I.length := by
  have hsplit := length_filter_add_length_filter_neg (fun i => decide (i ∈ I)) u
  have hmem := length_filter_mem hu hI hsub
  have hfun : (fun i => !decide (i ∈ I)) = (fun i => decide (i ∉ I)) := by
    funext i; simp
  rw [hfun] at hsplit
  omega

theorem dictGet_logTags_not_mem (d : List (ℕ × String)) (I : List ℕ)
    (tag : String) (i : ℕ) (h : i ∉ I) :
    dictGet (logTags d I tag) i = dictGet d i := by
  induction I generalizing d with
  | nil => rfl
  | cons a I' ih =>
      have hne : i ∉ I' := fun hm => h (List.mem_cons_of_mem a hm)
      have hia : a ≠ i := fun he => h (he ▸ List.mem_cons_self a I')
      rw [show logTags d (a :: I') tag = logTags (dictInsert d a tag) I' tag from rfl,
        ih _ hne, dictGet_dictInsert_ne d a i tag hia]

theorem dictGet_logTags_mem (d : List (ℕ × String)) (I : List ℕ)
    (tag : String) (i : ℕ) (h : i ∈ I) :
    dictGet (logTags d I tag) i = some tag := by
  induction I generalizing d with
  | nil => cases h
  | cons a I' ih =>
      rw [show logTags d (a :: I') tag = logTags (dictInsert d a tag) I' tag from rfl]
      by_cases hm : i ∈ I'
      · exact ih _ hm
      · have : i = a := by
          rcases List.mem_cons.mp h with h1 | h2
          · exact h1
          · exact absurd h2 hm
        subst this
        rw [dictGet_logTags_not_mem _ _ _ _ hm, dictGet_dictInsert_same]

end PyRel

namespace PyRel

/-! ### Claims -/

/-- C2: after `active_learning_update(indices, oracle_interface, tag)` with
distinct indices drawn from the current unlabelled set, the labelled set
grows by exactly `|indices|`, the unlabelled set shrinks by exactly
`|indices|`, the iteration counter increases by exactly one, and the
provenance map records `labelled_by[i] = tag` for every `i` in `indices`. -/
theorem claim_C2 (s : Strategy) (indices : List ℕ) (o : Option Unit)
    (tag : String) (hu : s.u_indices.Nodup) (hI : indices.Nodup)
    (hsub : ∀ i ∈ indices, i ∈ s.u_indices) :
    (s.active_learning_update indices o tag).l_indices.length
        = s.l_indices.length + indices.length
    ∧ (s.active_learning_update indices o tag).u_indices.length
        = s.u_indices.length - indices.length
    ∧ (s.active_learning_update indices o tag).iteration = s.iteration + 1
    ∧ ∀ i ∈ indices,
        dictGet (s.active_learning_update indices o tag).labelled_by i
          = some tag := by
  refine ⟨?_, ?_, rfl, ?_⟩
  · rw [active_learning_update_l]; simp
  · rw [active_learning_update_u]; exact length_filter_not_mem hu hI hsub
  · intro i hi
    rw [active_learning_update_labelled]
    exact dictGet_logTags_mem _ _ _ _ hi

/-- Witness for C2 at a concrete state: labelling `[7, 4]` with tag `"1"`. -/
theorem claim_C2_witness :
    (egPlain.active_learning_update [7, 4] none "1").l_indices.length
        = egPlain.l_indices.length + [7, 4].length
    ∧ (egPlain.active_learning_update [7, 4] none "1").u_indices.length
        = egPlain.u_indices.length - [7, 4].length
    ∧ (egPlain.active_learning_update [7, 4] none "1").iteration
        = egPlain.iteration + 1
    ∧ ∀ i ∈ [7, 4],
        dictGet (egPlain.active_learning_update [7, 4] none "1").labelled_by i
          = some "1" :=
  claim_C2 egPlain [7, 4] none "1" (by decide) (by decide) (by decide)

/-- C3: the labelled/unlabelled partition invariant is preserved by
`active_learning_update` when the moved indices are drawn from the current
unlabelled set: if L and U are disjoint and cover the index universe
before the call, they still are and do afterwards. -/
theorem claim_C3 (s : Strategy) (indices : List ℕ) (o : Option Unit)
    (tag : String) (univ : Finset ℕ)
    (hdisj : s.l_indices.toFinset ∩ s.u_indices.toFinset = ∅)
    (huniv : s.l_indices.toFinset ∪ s.u_indices.toFinset = univ)
    (hsub : ∀ i ∈ indices, i ∈ s.u_indices) :
    (s.active_learning_update indices o tag).l_indices.toFinset
        ∩ (s.active_learning_update indices o tag).u_indices.toFinset = ∅
    ∧ (s.active_learning_update indices o tag).l_indices.toFinset
        ∪ (s.active_learning_update indices o tag).u_indices.toFinset = univ := by
  have hd : ∀ x : ℕ, x ∈ s.l_indices → x ∈ s.u_indices → False := by
    intro x hl hu
    have hx : x ∈ s.l_indices.toFinset ∩ s.u_indices.toFinset := by
      simp [List.mem_toFinset, hl, hu]
    rw [hdisj] at hx
    exact absurd hx (Finset.not_mem_empty x)
  have hu : ∀ x : ℕ, x ∈ univ ↔ x ∈ s.l_indices ∨ x ∈ s.u_indices := by
    intro x
    rw [← huniv]
    simp [List.mem_toFinset]
  rw [active_learning_update_l, active_learning_update_u]
  constructor
  · apply Finset.eq_empty_iff_forall_not_mem.mpr
    intro x hx
    simp only [Finset.mem_inter, List.mem_toFinset, List.mem_append,
      List.mem_filter, decide_eq_true_eq] at hx
    obtain ⟨hl | hi, hu', hni⟩ := hx
    · exact hd x hl hu'
    · exact hni hi
  · ext x
    simp only [Finset.mem_union, List.mem_toFinset, List.mem_append,
      List.mem_filter, decide_eq_true_eq, hu x]
    by_cases hi : x ∈ indices
    · have := hsub x hi
      tauto
    · tauto

/-- Witness for C3 at a concrete state: moving `[7, 4]` keeps the
partition of `{0, ..., 9}`. -/
theorem claim_C3_witness :
    (egPlain.active_learning_update [7, 4] none "1").l_indices.toFinset
        ∩ (egPlain.active_learning_update [7, 4] none "1").u_indices.toFinset = ∅
    ∧ (egPlain.active_learning_update [7, 4] none "1").l_indices.toFinset
        ∪ (egPlain.active_learning_update [7, 4] none "1").u_indices.toFinset
        = ({0, 1, 2, 3, 4, 5, 6, 7, 8, 9} : Finset ℕ) :=
  claim_C3 egPlain [7, 4] none "1" {0, 1, 2, 3, 4, 5, 6, 7, 8, 9}
    (by decide) (by decide) (by decide)

/-- C4: with an oracle top-informative set configured (and nonempty, else
Python's division raises), `current_performance` reports
`hit_ratio = |set(query) ∩ top| / |top|` when a query is supplied and
`np.nan` when `query` is `None`. -/
theorem claim_C4 (s : Strategy) (testFn : Snapshot → PerfRecord)
    (top : Finset ℕ) (q : List ℕ)
    (htop : s.data_manager.top_unlabelled = some top) (hpos : 0 < top.card) :
    dictGet (s.current_performance testFn (some q)).1 "hit_ratio"
        = some (MVal.num (((q.toFinset ∩ top).card : ℚ) / (top.card : ℚ)))
    ∧ dictGet (s.current_performance testFn none).1 "hit_ratio"
        = some MVal.nan := by
  constructor <;>
    simp [Strategy.current_performance, htop, hitRatio, dictGet_dictInsert_same]

/-- Witness for C4: with top set `{3, 7, 9}` and query `[7, 9, 12, 5]`,
the hit ratio is `2/3`; with no query it is `np.nan`. -/
theorem claim_C4_witness :
    dictGet (egOracle.current_performance testFnNil (some [7, 9, 12, 5])).1
        "hit_ratio" = some (MVal.num (2 / 3))
    ∧ dictGet (egOracle.current_performance testFnNil none).1 "hit_ratio"
        = some MVal.nan := by
  have h := claim_C4 egOracle testFnNil {3, 7, 9} [7, 9, 12, 5] rfl (by decide)
  refine ⟨?_, h.2⟩
  have hc : ((([7, 9, 12, 5] : List ℕ).toFinset ∩ ({3, 7, 9} : Finset ℕ)).card) = 2 := rfl
  have ht : (({3, 7, 9} : Finset ℕ).card) = 3 := rfl
  rw [h.1, hc, ht]
  norm_num

/-- C6: both performance-measurement operations leave the model's current
fitted instance null afterwards, whatever the prior model state. -/
theorem claim_C6 (s : Strategy) (testFn : Snapshot → PerfRecord)
    (q : Option (List ℕ)) :
    (s.theoretical_performance testFn).2.model.current_model = none
    ∧ (s.current_performance testFn q).2.model.current_model = none :=
  ⟨rfl, rfl⟩

/-- C9: `BadgeLightningModel.get_gradients` raises its descriptive
`ValueError` exactly when the current fitted instance is null; with a
fitted model it computes gradients instead. -/
theorem claim_C9 {G : Type} (m : GenericModel)
    (compute : Snapshot → List ℕ → G) (loader : List ℕ) :
    get_gradients m compute loader
        = Except.error
            "Trying to query gradients of an untrained model, train model before calling get_gradients."
      ↔ m.current_model = none := by
  cases h : m.current_model <;> simp [get_gradients, h]

/-- C10: `active_learning_update` with an empty index list still
increments the iteration counter by one while leaving the partition and
the provenance map unchanged. -/
theorem claim_C10 (s : Strategy) (o : Option Unit) (tag : String) :
    (s.active_learning_update [] o tag).iteration = s.iteration + 1
    ∧ (s.active_learning_update [] o tag).data_manager = s.data_manager
    ∧ (s.active_learning_update [] o tag).labelled_by = s.labelled_by := by
  refine ⟨rfl, ?_, rfl⟩
  show s.data_manager.update_train_labels [] = s.data_manager
  obtain ⟨l, u, top⟩ := s.data_manager
  simp [DataManager.update_train_labels]

end PyRel

namespace PyRel

/-! ### Loop lemmas -/

theorem passState_u (step : Strategy → ℕ → List ℕ)
    (testFn : Snapshot → PerfRecord) (na : ℕ) (s : Strategy) :
    (passState step testFn na s).u_indices
      = s.u_indices.filter (fun i => decide (i ∉ step s na)) := rfl

theorem passState_performances (step : Strategy → ℕ → List ℕ)
    (testFn : Snapshot → PerfRecord) (na : ℕ) (s : Strategy) :
    (passState step testFn na s).performances
      = dictInsert s.performances (PKey.iter s.iteration)
          (s.current_performance testFn (some (step s na))).1 := rfl

theorem runLoop_of_empty (step : Strategy → ℕ → List ℕ)
    (testFn : Snapshot → PerfRecord) (na : ℕ) (ni : Option ℕ) (fuel ic : ℕ)
    (s : Strategy) (hu : s.u_indices.length = 0) :
    runLoop step testFn na ni fuel ic s = some (ic, s) := by
  cases fuel <;> simp [runLoop, hu]

theorem runLoop_succ_cap (step : Strategy → ℕ → List ℕ)
    (testFn : Snapshot → PerfRecord) (na : ℕ) (ni : Option ℕ) (fuel ic : ℕ)
    (s : Strategy) (hu : ¬ s.u_indices.length = 0) (hni : ni = some (ic + 1)) :
    runLoop step testFn na ni (fuel + 1) ic s
      = some (ic + 1, passState step testFn na s) := by
  simp [runLoop, hu, hni]

theorem runLoop_succ_go (step : Strategy → ℕ → List ℕ)
    (testFn : Snapshot → PerfRecord) (na : ℕ) (ni : Option ℕ) (fuel ic : ℕ)
    (s : Strategy) (hu : ¬ s.u_indices.length = 0) (hni : ¬ ni = some (ic + 1)) :
    runLoop step testFn na ni (fuel + 1) ic s
      = runLoop step testFn na ni fuel (ic + 1) (passState step testFn na s) := by
  simp [runLoop, hu, hni]

/-- Every record the loop writes is keyed by an integer iteration key, so
the `"full"` entry of `performances` is untouched by the loop. -/
theorem runLoop_preserves_full (step : Strategy → ℕ → List ℕ)
    (testFn : Snapshot → PerfRecord) (na : ℕ) (ni : Option ℕ) :
    ∀ (fuel ic : ℕ) (s : Strategy) (r : ℕ × Strategy),
      runLoop step testFn na ni fuel ic s = some r →
      dictGet r.2.performances PKey.full = dictGet s.performances PKey.full := by
  intro fuel
  induction fuel with
  | zero =>
      intro ic s r h
      by_cases hu : s.u_indices.length = 0
      · rw [runLoop_of_empty _ _ _ _ _ _ _ hu] at h
        cases h; rfl
      · simp [runLoop, hu] at h
  | succ fuel ih =>
      intro ic s r h
      by_cases hu : s.u_indices.length = 0
      · rw [runLoop_of_empty _ _ _ _ _ _ _ hu] at h
        cases h; rfl
      · have hins : dictGet (passState step testFn na s).performances PKey.full
            = dictGet s.performances PKey.full := by
          rw [passState_performances]
          exact dictGet_dictInsert_ne _ _ _ _ (fun hne => PKey.noConfusion hne)
        by_cases hni : ni = some (ic + 1)
        · rw [runLoop_succ_cap _ _ _ _ _ _ _ hu hni] at h
          cases h
          exact hins
        · rw [runLoop_succ_go _ _ _ _ _ _ _ hu hni] at h
          rw [ih _ _ _ h, hins]

end PyRel

namespace PyRel

/-- If a positive iteration cap is configured, the loop never runs more
than the cap many passes (it checks `iter_count == num_iterations` after
each update, and `iter_count` increases by one per pass). -/
theorem runLoop_cap (step : Strategy → ℕ → List ℕ)
    (testFn : Snapshot → PerfRecord) (na : ℕ) (ni : Option ℕ) (k : ℕ) :
    ∀ (fuel ic : ℕ) (s : Strategy) (r : ℕ × Strategy),
      runLoop step testFn na ni fuel ic s = some r → ic < k → ni = some k →
      r.1 ≤ k := by
  intro fuel
  induction fuel with
  | zero =>
      intro ic s r h hic hk
      by_cases hu : s.u_indices.length = 0
      · rw [runLoop_of_empty _ _ _ _ _ _ _ hu] at h
        cases h; exact Nat.le_of_lt hic
      · simp [runLoop, hu] at h
  | succ fuel ih =>
      intro ic s r h hic hk
      by_cases hu : s.u_indices.length = 0
      · rw [runLoop_of_empty _ _ _ _ _ _ _ hu] at h
        cases h; exact Nat.le_of_lt hic
      · by_cases hni : ni = some (ic + 1)
        · rw [runLoop_succ_cap _ _ _ _ _ _ _ hu hni] at h
          cases h
          rw [hk] at hni
          exact Nat.le_of_eq (Option.some.inj hni).symm
        · rw [runLoop_succ_go _ _ _ _ _ _ _ hu hni] at h
          have hlt : ic + 1 < k := by
            rcases Nat.lt_or_ge (ic + 1) k with h1 | h1
            · exact h1
            · exfalso
              have : ic + 1 = k := by omega
              exact hni (this ▸ hk)
          exact ih _ _ _ h hlt hk

/-- If every pass removes exactly `min num_annotate |U|` indices (distinct
members of the current unlabelled pool), then after at most `n` passes
with `|U₀)| ≤ n * num_annotate` the loop stops, with the pool exhausted
or the cap reached. -/
theorem runLoop_bound (step : Strategy → ℕ → List ℕ)
    (testFn : Snapshot → PerfRecord) (na : ℕ) (ni : Option ℕ)
    (hstep : ∀ t : Strategy, t.u_indices.Nodup →
      (step t na).Nodup ∧ (∀ i ∈ step t na, i ∈ t.u_indices)
        ∧ (step t na).length = min na t.u_indices.length) :
    ∀ (n fuel ic : ℕ) (s : Strategy), s.u_indices.Nodup →
      s.u_indices.length ≤ n * na → n ≤ fuel →
      ∃ r : ℕ × Strategy, runLoop step testFn na ni fuel ic s = some r
        ∧ r.1 ≤ ic + n ∧ (r.2.u_indices = [] ∨ ni = some r.1) := by
  intro n
  induction n with
  | zero =>
      intro fuel ic s hnod hlen _
      have hu : s.u_indices.length = 0 := by omega
      refine ⟨(ic, s), runLoop_of_empty _ _ _ _ _ _ _ hu, Nat.le_refl _, Or.inl ?_⟩
      exact List.length_eq_zero.mp hu
  | succ n ih =>
      intro fuel ic s hnod hlen hfuel
      by_cases hu : s.u_indices.length = 0
      · refine ⟨(ic, s), runLoop_of_empty _ _ _ _ _ _ _ hu, by omega, Or.inl ?_⟩
        exact List.length_eq_zero.mp hu
      · obtain ⟨hsnod, hsmem, hslen⟩ := hstep s hnod
        cases fuel with
        | zero => omega
        | succ fuel =>
            have hs2nod : (passState step testFn na s).u_indices.Nodup := by
              rw [passState_u]
              exact hnod.filter _
            have hs2len : (passState step testFn na s).u_indices.length
                = s.u_indices.length - (step s na).length := by
              rw [passState_u]
              exact length_filter_not_mem hnod hsnod hsmem
            have hmul : (n + 1) * na = n * na + na := by ring
            have hs2bound : (passState step testFn na s).u_indices.length ≤ n * na := by
              rw [hs2len, hslen]
              omega
            by_cases hni : ni = some (ic + 1)
            · exact ⟨(ic + 1, passState step testFn na s),
                runLoop_succ_cap _ _ _ _ _ _ _ hu hni, by omega, Or.inr hni⟩
            · obtain ⟨r, hr, hr1, hr2⟩ :=
                ih fuel (ic + 1) (passState step testFn na s) hs2nod hs2bound (by omega)
              exact ⟨r, (runLoop_succ_go _ _ _ _ _ _ _ hu hni).trans hr, by omega, hr2⟩

end PyRel

namespace PyRel

/-- C1 counterexample: at a concrete input, `full_active_learning_run`
returns with the model's current fitted instance null (the final
`current_performance` call resets it), not a fitted snapshot. -/
theorem claim_C1_counterexample :
    (egRun.full_active_learning_run stepTake testFnNil 1 none 5).map
        (fun t => t.model.current_model) = some none := rfl

/-- C1 (amended): whenever `full_active_learning_run` returns, the final
retrain on the current labelled set is followed by a final
`current_performance` call, which resets the model, so the post-state's
current fitted instance is null. -/
theorem claim_C1_amended (s : Strategy) (step : Strategy → ℕ → List ℕ)
    (testFn : Snapshot → PerfRecord) (na : ℕ) (ni : Option ℕ) (fuel : ℕ)
    (s' : Strategy)
    (h : s.full_active_learning_run step testFn na ni fuel = some s') :
    s'.model.current_model = none := by
  unfold Strategy.full_active_learning_run at h
  cases hr : runLoop step testFn na ni fuel 0 s with
  | none => rw [hr] at h; cases h
  | some r =>
      rw [hr] at h
      cases h
      rfl

/-- Witness for the amended C1 at a concrete run. -/
theorem claim_C1_witness :
    ((egRun.full_active_learning_run stepTake testFnNil 1 none 5).getD
        egRun).model.current_model = none := by
  obtain ⟨t, ht⟩ : ∃ t,
      egRun.full_active_learning_run stepTake testFnNil 1 none 5 = some t :=
    ⟨_, rfl⟩
  rw [ht]
  exact claim_C1_amended egRun stepTake testFnNil 1 none 5 t ht

/-- The one-index step meets the C5 premise as stated (distinct members
of the current unlabelled pool, at most `num_annotate = 2` of them). -/
theorem stepOne_meets_C5_premise (t : Strategy) (ht : t.u_indices.Nodup) :
    (stepOne t 2).Nodup ∧ (∀ i ∈ stepOne t 2, i ∈ t.u_indices)
      ∧ (stepOne t 2).length ≤ 2 := by
  refine ⟨ht.sublist (List.take_sublist 1 _), fun i hi => List.take_subset _ _ hi, ?_⟩
  calc (stepOne t 2).length ≤ 1 := List.length_take_le 1 _
    _ ≤ 2 := by omega

/-- C5 counterexample: with `num_annotate = 2`, no iteration cap, and a
step returning one (distinct, unlabelled) index per pass — allowed by the
claim's "at most num_annotate" premise, see `stepOne_meets_C5_premise` —
the loop over the 2-element pool of `egRun` makes 2 passes, exceeding the
claimed bound `⌈2 / 2⌉ = 1`. -/
theorem claim_C5_counterexample :
    (runLoop stepOne testFnNil 2 none 10 0 egRun).map Prod.fst = some 2
    ∧ egRun.u_indices.length = 2
    ∧ (egRun.u_indices.length + 2 - 1) / 2 = 1
    ∧ ¬ ((2 : ℕ) ≤ 1) :=
  ⟨rfl, rfl, rfl, by omega⟩

/-- C5 (amended): if `num_annotate > 0` and `active_learning_step` returns
exactly `min num_annotate |U|` distinct members of the current unlabelled
pool, then with enough fuel the loop returns after at most
`⌈|U₀| / num_annotate⌉` passes — at most `num_iterations` passes when a
positive cap is set — and at exit the pool is empty or the cap was
reached. -/
theorem claim_C5_amended (step : Strategy → ℕ → List ℕ)
    (testFn : Snapshot → PerfRecord) (na : ℕ) (ni : Option ℕ) (s : Strategy)
    (fuel : ℕ) (hna : 0 < na)
    (hstep : ∀ t : Strategy, t.u_indices.Nodup →
      (step t na).Nodup ∧ (∀ i ∈ step t na, i ∈ t.u_indices)
        ∧ (step t na).length = min na t.u_indices.length)
    (hnod : s.u_indices.Nodup)
    (hfuel : (s.u_indices.length + na - 1) / na ≤ fuel) :
    ∃ r : ℕ × Strategy, runLoop step testFn na ni fuel 0 s = some r
      ∧ r.1 ≤ (s.u_indices.length + na - 1) / na
      ∧ (∀ k, ni = some k → 0 < k → r.1 ≤ k)
      ∧ (r.2.u_indices = [] ∨ ni = some r.1) := by
  have hdm := Nat.div_add_mod (s.u_indices.length + na - 1) na
  have hmod : (s.u_indices.length + na - 1) % na < na :=
    Nat.mod_lt _ hna
  have hcomm : ((s.u_indices.length + na - 1) / na) * na
      = na * ((s.u_indices.length + na - 1) / na) := Nat.mul_comm _ _
  have hlen : s.u_indices.length ≤ ((s.u_indices.length + na - 1) / na) * na := by
    omega
  obtain ⟨r, hr, hr1, hr2⟩ :=
    runLoop_bound step testFn na ni hstep _ fuel 0 s hnod hlen hfuel
  refine ⟨r, hr, by omega, ?_, hr2⟩
  intro k hk hkpos
  exact runLoop_cap step testFn na ni k fuel 0 s r hr hkpos hk

/-- Witness for the amended C5 at a concrete run: `stepTake` removes
`min num_annotate |U|` indices per pass. -/
theorem claim_C5_witness :
    ∃ r : ℕ × Strategy, runLoop stepTake testFnNil 1 none 5 0 egRun = some r
      ∧ r.1 ≤ (egRun.u_indices.length + 1 - 1) / 1
      ∧ (∀ k, (none : Option ℕ) = some k → 0 < k → r.1 ≤ k)
      ∧ (r.2.u_indices = [] ∨ (none : Option ℕ) = some r.1) :=
  claim_C5_amended stepTake testFnNil 1 none egRun 5 (by omega)
    (fun t ht => ⟨ht.sublist (List.take_sublist 1 _),
      fun i hi => List.take_subset _ _ hi, List.length_take 1 _⟩)
    (by decide) (by decide)

/-- C8: the loop of `full_active_learning_run` (and its final post-loop
record) only writes integer iteration keys into `performances`, so a
record stored under the `"full"` sentinel beforehand is unchanged by any
run of the loop. -/
theorem claim_C8 (s : Strategy) (step : Strategy → ℕ → List ℕ)
    (testFn : Snapshot → PerfRecord) (na : ℕ) (ni : Option ℕ) (fuel : ℕ)
    (s' : Strategy)
    (h : s.full_active_learning_run step testFn na ni fuel = some s') :
    dictGet s'.performances PKey.full = dictGet s.performances PKey.full := by
  unfold Strategy.full_active_learning_run at h
  cases hr : runLoop step testFn na ni fuel 0 s with
  | none => rw [hr] at h; cases h
  | some r =>
      rw [hr] at h
      cases h
      have hfinal :
          dictGet (dictInsert r.2.performances (PKey.iter r.2.iteration)
            ((({ r.2 with model := r.2.model.train r.2.l_indices
               } : Strategy).current_performance testFn none).1)) PKey.full
          = dictGet r.2.performances PKey.full :=
        dictGet_dictInsert_ne _ _ _ _ (fun hne => PKey.noConfusion hne)
      exact hfinal.trans (runLoop_preserves_full step testFn na ni fuel 0 s r hr)

/-- Witness for C8 at a concrete run: the stored `"full"` record of
`egRun` survives a full run. -/
theorem claim_C8_witness :
    dictGet ((egRun.full_active_learning_run stepTake testFnNil 1 none 5).getD
        egRun).performances PKey.full
      = dictGet egRun.performances PKey.full := by
  obtain ⟨t, ht⟩ : ∃ t,
      egRun.full_active_learning_run stepTake testFnNil 1 none 5 = some t :=
    ⟨_, rfl⟩
  rw [ht]
  exact claim_C8 egRun stepTake testFnNil 1 none 5 t ht

end PyRel

namespace PyRel

/-- C7: `performance_history` has one row per recorded integer iteration
key (the `"full"` sentinel excluded), rows in iteration-ascending order
without duplicates, and a column list headed by `"Iteration"` followed by
the sorted metric names of the `"full"` record when present, else the
sorted metric names of the record at the engine's latest (current)
iteration, else nothing. -/
theorem claim_C7 (s : Strategy) :
    (s.performance_history.2.map Prod.fst).Nodup
    ∧ (∀ n : ℕ, n ∈ s.performance_history.2.map Prod.fst
        ↔ PKey.iter n ∈ s.performances.map Prod.fst)
    ∧ (s.performance_history.2.map Prod.fst).Sorted (· ≤ ·)
    ∧ s.performance_history.1.head? = some "Iteration"
    ∧ (s.performance_history.1.drop 1).Sorted (· ≤ ·)
    ∧ (∀ fr, dictGet s.performances PKey.full = some fr →
        ∀ c, c ∈ s.performance_history.1.drop 1 ↔ c ∈ dictKeys fr)
    ∧ (dictGet s.performances PKey.full = none →
        ∀ ir, dictGet s.performances (PKey.iter s.iteration) = some ir →
          ∀ c, c ∈ s.performance_history.1.drop 1 ↔ c ∈ dictKeys ir)
    ∧ (dictGet s.performances PKey.full = none →
        dictGet s.performances (PKey.iter s.iteration) = none →
          s.performance_history.1 = ["Iteration"]) := by
  have hrows : s.performance_history.2.map Prod.fst = s.history_keys := by
    simp only [Strategy.performance_history, Strategy.history_rows,
      List.map_map]
    exact List.map_id _
  refine ⟨?_, ?_, ?_, ?_, ?_, ?_, ?_, ?_⟩
  · rw [hrows]
    unfold Strategy.history_keys natSort
    exact ((List.perm_insertionSort _ _).nodup_iff).mpr (List.nodup_dedup _)
  · intro n
    rw [hrows]
    unfold Strategy.history_keys natSort
    rw [List.mem_insertionSort, List.mem_dedup, List.mem_filterMap]
    constructor
    · rintro ⟨kv, hkv, hf⟩
      cases hk : kv.1 with
      | iter m =>
          simp only [hk] at hf
          obtain rfl := Option.some.inj hf
          exact List.mem_map.mpr ⟨kv, hkv, hk⟩
      | full =>
          rw [hk] at hf
          exact Option.noConfusion hf
    · intro h
      obtain ⟨kv, hkv, hk⟩ := List.mem_map.mp h
      exact ⟨kv, hkv, by rw [hk]⟩
  · rw [hrows]
    unfold Strategy.history_keys natSort
    exact List.sorted_insertionSort _ _
  · show s.history_columns.head? = some "Iteration"
    unfold Strategy.history_columns
    cases dictGet s.performances PKey.full with
    | some fr => rfl
    | none =>
        cases dictGet s.performances (PKey.iter s.iteration) with
        | some ir => rfl
        | none => rfl
  · show (s.history_columns.drop 1).Sorted (· ≤ ·)
    unfold Strategy.history_columns
    cases dictGet s.performances PKey.full with
    | some fr =>
        simpa [strSort] using List.sorted_insertionSort (· ≤ ·) (dictKeys fr)
    | none =>
        cases dictGet s.performances (PKey.iter s.iteration) with
        | some ir =>
            simpa [strSort] using List.sorted_insertionSort (· ≤ ·) (dictKeys ir)
        | none => simp
  · intro fr hfr c
    show c ∈ s.history_columns.drop 1 ↔ c ∈ dictKeys fr
    unfold Strategy.history_columns
    rw [hfr]
    simp [strSort, List.mem_insertionSort]
  · intro hfull ir hir c
    show c ∈ s.history_columns.drop 1 ↔ c ∈ dictKeys ir
    unfold Strategy.history_columns
    rw [hfull, hir]
    simp [strSort, List.mem_insertionSort]
  · intro hfull hit
    show s.history_columns = ["Iteration"]
    unfold Strategy.history_columns
    rw [hfull, hit]

/-- Witness for C7: the conclusions instantiated at `egHist`. -/
theorem claim_C7_witness :
    (egHist.performance_history.2.map Prod.fst).Nodup
    ∧ ((0 : ℕ) ∈ egHist.performance_history.2.map Prod.fst
        ↔ PKey.iter 0 ∈ egHist.performances.map Prod.fst)
    ∧ (egHist.performance_history.2.map Prod.fst).Sorted (· ≤ ·)
    ∧ egHist.performance_history.1.head? = some "Iteration"
    ∧ (∀ c, c ∈ egHist.performance_history.1.drop 1
        ↔ c ∈ dictKeys [("a", MVal.num 3), ("b", MVal.num 4)]) := by
  have h := claim_C7 egHist
  exact ⟨h.1, h.2.1 0, h.2.2.1, h.2.2.2.1, h.2.2.2.2.2.1 _ rfl⟩

end PyRel
